import Mathlib

/-!
Verification of the reliability-based CMA-ES learner
(`pypuf/learner/evolution_strategies/cmaes.py`).

The Python source is shallowly embedded below:
* float values are modelled as `ℚ` where only ordering/arithmetic matters
  (the stagnation predicate, the PUF reliability scores) and as `ℝ` where
  the code takes square roots (the Pearson correlation machinery);
* NumPy/TensorFlow operations that produce NaN (division by zero in a
  correlation) are modelled with `Option`: `none` stands for NaN;
* Python's `max`/`min`/`abs` are embedded as their defining conditionals so
  that concrete runs of the embedded code reduce inside the kernel.
-/

namespace PypufCMAES

/-! ### Stagnation predicate (`ReliabilityBasedCMAES.is_iteration_stagnated`) -/

/-- Python's binary `max` on rationals. -/
def pyMax (a b : ℚ) : ℚ := if a ≤ b then b else a

/-- Python's binary `min` on rationals. -/
def pyMin (a b : ℚ) : ℚ := if a ≤ b then a else b

/-- `np.abs` on a rational scalar. -/
def ratAbs (x : ℚ) : ℚ := if x < 0 then -x else x

/-- Python list slice `l[-a:]`.  For `a = 0` Python yields the whole list
(`l[-0:] = l[0:] = l`); for `a ≥ 1` it yields the last `min a l.length`
elements. -/
def pySliceLast (a : ℕ) (l : List ℚ) : List ℚ :=
  if a = 0 then l else l.drop (l.length - a)

/-- Python `max` over a list; the empty case (on which Python raises) is
given the junk value `0` — it is never reached in the embedded code. -/
def listMax : List ℚ → ℚ
  | [] => 0
  | h :: t => t.foldl pyMax h

/-- Python `min` over a list, with the same junk value convention. -/
def listMin : List ℚ → ℚ
  | [] => 0
  | h :: t => t.foldl pyMin h

/-- Embedding of `ReliabilityBasedCMAES.is_iteration_stagnated`:
`fun_history = es.fit.hist[-abort_iter:]`; return `False` when
`len(es.fit.hist) < 100`; return `True` when
`abs(max(fun_history) - min(fun_history)) < abort_delta`; else `False`. -/
def is_iteration_stagnated (abort_iter : ℕ) (abort_delta : ℚ) (hist : List ℚ) : Bool :=
  let fun_history := pySliceLast abort_iter hist
  if hist.length < 100 then false
  else if ratAbs (listMax fun_history - listMin fun_history) < abort_delta then true
  else false

/-- `descFrom q n = [q, q-1, ..., q-(n-1)]`: a concrete strictly decreasing
(i.e. strictly improving) cost history. -/
def descFrom : ℚ → ℕ → List ℚ
  | _, 0 => []
  | q, n + 1 => q :: descFrom (q - 1) n

/-- A strictly decreasing best-cost history of length 101: `[100, 99, ..., 0]`. -/
def hist101 : List ℚ := descFrom 100 101

/-! ### PUF reliabilities (`reliabilities_PUF`) -/

/-- Modelled from the spec: `transform_challenge_11_to_01` lives in
`pypuf.tools`, which is not among the sources; per the spec it normalizes a
`{+1,-1}` response array to `{0,1}` (mapping `+1` to `0` and `-1` to `1`;
other entries are untouched). -/
def transform_challenge_11_to_01 (R : List (List ℤ)) : List (List ℤ) :=
  R.map (fun row => row.map (fun x => if x = 1 then 0 else if x = -1 then 1 else x))

/-- The Python membership test `(-1 in response_bits)` over a 2-d array. -/
def hasNegOne (R : List (List ℤ)) : Bool :=
  R.any (fun row => row.any (fun x => decide (x = -1)))

/-- Embedding of `reliabilities_PUF`: convert to `{0,1}` only when a `-1`
occurs somewhere in the array, then return per row
`abs(shape[1]/2 - row_sum)` (the row length `shape[1]` is uniform for a NumPy
array and is read off the first row). -/
def reliabilities_PUF (response_bits : List (List ℤ)) : List ℚ :=
  let R := if hasNegOne response_bits then transform_challenge_11_to_01 response_bits
    else response_bits
  let m := (R.headD []).length
  R.map (fun row => |(m : ℚ) / 2 - (row.sum : ℚ)|)

/-- Spec-side normalization of one response row to `{0,1}`: for `pm1 = true`
the row is read in `{+1,-1}` encoding (`+1` becomes `0`, `-1` becomes `1`),
for `pm1 = false` the row is already in `{0,1}` encoding. -/
def spec_norm01 (pm1 : Bool) (row : List ℤ) : List ℤ :=
  if pm1 then row.map (fun x => if x = -1 then 1 else 0) else row

/-! ### Pearson correlation, objective and chain pool (real-valued part)

Floats are modelled as `ℝ` here because the correlation involves a square
root.  A correlation whose denominator is zero is NaN in NumPy/TensorFlow and
is modelled as `none`. -/

/-- Mean of a list (`tf.reduce_mean`). -/
noncomputable def listMean (l : List ℝ) : ℝ := l.sum / l.length

/-- Subtract the mean from every entry (`x - tf.reduce_mean(x)`). -/
noncomputable def centered (l : List ℝ) : List ℝ := l.map (fun x => x - listMean l)

/-- Dot product of two vectors (`tf.tensordot(_, _, axes=1)` on vectors). -/
noncomputable def dotR (a b : List ℝ) : ℝ := (List.zipWith (fun x y => x * y) a b).sum

/-- Sum of squares (`tf.reduce_sum(v**2)`). -/
noncomputable def sumSq (l : List ℝ) : ℝ := (l.map (fun x => x ^ 2)).sum

/-- Embedding of `tf_pearsonr`, specialized to one column of `x` (one
population member): center `x` and `y`, take
`cov_xy = tensordot(centered_y, centered_x)`,
`auto_cov = sqrt(sum(centered_x**2) * sum(centered_y**2))` and return
`cov_xy / auto_cov`.  A zero denominator makes the float division produce
NaN, modelled as `none`. -/
noncomputable def tf_pearsonr (x y : List ℝ) : Option ℝ :=
  if Real.sqrt (sumSq (centered x) * sumSq (centered y)) = 0 then none
  else some (dotR (centered y) (centered x) / Real.sqrt (sumSq (centered x) * sumSq (centered y)))

/-- `scipy.stats.pearsonr(w, v)[0]`, used in `learn` for the novelty check:
the same correlation statistic as `tf_pearsonr` (and NaN, i.e. `none`, for a
constant input vector). -/
noncomputable def pearsonr (x y : List ℝ) : Option ℝ := tf_pearsonr x y

/-- Embedding of `reliabilities_MODEL`: the boolean reliability indicator
`abs(delay_diff) > EPSILON` per challenge. -/
noncomputable def reliabilities_MODEL (delay_diffs : List ℝ) (EPSILON : ℝ) : List Bool :=
  delay_diffs.map (fun d => decide (EPSILON < |d|))

/-- The attributes of a `ReliabilityBasedCMAES` learner instance that the
embedded methods read.  `current_challenges` is assigned inside `learn` (per
chain slot); `__init__` leaves it empty. -/
structure LearnerState where
  k : ℕ
  n : ℕ
  pop_size : ℕ
  abort_delta : ℚ
  abort_iter : ℕ
  puf_reliabilities : List ℚ
  linearized_challenges : List (List (List ℝ))
  current_challenges : List (List ℝ)

/-- `np.array(self.puf_reliabilities, dtype=np.float64)`. -/
noncomputable def pufY (st : LearnerState) : List ℝ :=
  st.puf_reliabilities.map (fun q => (q : ℝ))

/-- One row of `tf.linalg.matmul(weights, self.current_challenges.T)`: the
delay differences of one candidate on every challenge. -/
noncomputable def delayDiffs (st : LearnerState) (weights : List ℝ) : List ℝ :=
  st.current_challenges.map (fun ch => dotR weights ch)

/-- One candidate's model reliability indicator vector, cast to floats
(`np.array(model_reliabilities, dtype=np.float64)` turns the booleans into
`1.0`/`0.0`); the weights are `state[:, :n]` and epsilon is `state[:, -1]`. -/
noncomputable def modelReliability (st : LearnerState) (cand : List ℝ) : List ℝ :=
  (reliabilities_MODEL (delayDiffs st (cand.take st.n)) (cand.getLastD 0)).map
    (fun b => if b then (1 : ℝ) else 0)

/-- Embedding of `ReliabilityBasedCMAES.objective` for one population member:
`abs(1 - corr)` where `corr` is the Pearson correlation of the candidate's
model reliability indicator with the stored PUF reliabilities. -/
noncomputable def objCand (st : LearnerState) (cand : List ℝ) : Option ℝ :=
  (tf_pearsonr (modelReliability st cand) (pufY st)).map (fun corr => |1 - corr|)

/-- Embedding of `ReliabilityBasedCMAES.objective` on the whole population
state matrix (one row per candidate, each of length `n+1`). -/
noncomputable def objective (st : LearnerState) (state : List (List ℝ)) : List (Option ℝ) :=
  state.map (objCand st)

/-- The spec's claimed cost formula: 1 minus the absolute value of the
correlation. -/
noncomputable def claimedCost (corr : ℝ) : ℝ := 1 - |corr|

/-- NumPy vector negation `-w`. -/
def negVec (w : List ℝ) : List ℝ := w.map (fun x => -x)

/-- Sign canonicalization in `learn`: `w = -w if w[0] < 0 else w`. -/
noncomputable def canonicalize (w : List ℝ) : List ℝ :=
  if w.headD 0 < 0 then negVec w else w

/-- The rejection test in `learn`: `tf.abs(pearsonr(w, v)[0]) > 0.5`.  A NaN
correlation (`none`) compares as `False` in Python, hence does not exceed. -/
def corrExceedsHalf (w v : List ℝ) : Prop :=
  ∃ c, pearsonr w v = some c ∧ 1 / 2 < |c|

/-- One iteration of the chain-learning loop in `learn`, applied to the best
CMA-ES solution `c` of this attempt: drop the trailing epsilon
(`w = w[:-1]`), canonicalize the sign, compare against every pool member and
append only when no absolute correlation exceeds 0.5; pools that already hold
`k` chains are left untouched (the loop has exited). -/
noncomputable def addChainAttempt (k : ℕ) (pool : List (List ℝ)) (c : List ℝ) :
    List (List ℝ) :=
  if pool.length < k then
    @ite _ (∀ v ∈ pool, ¬ corrExceedsHalf (canonicalize c.dropLast) v)
      (Classical.propDecidable _)
      (pool ++ [canonicalize c.dropLast]) pool
  else pool

/-- The pool built by the `while n_chain < k` loop of `learn` from the stream
of best solutions returned by the successive CMA-ES runs.  The pool after `t`
attempts is `learnPool k (cands.take t)`. -/
noncomputable def learnPool (k : ℕ) (cands : List (List ℝ)) : List (List ℝ) :=
  cands.foldl (addChainAttempt k) []

/-- The deduplication invariant: no two distinct pool members have absolute
Pearson correlation exceeding 0.5. -/
def PoolOK (pool : List (List ℝ)) : Prop :=
  pool.Pairwise (fun a b => ¬ corrExceedsHalf a b)

/-- `pool[0] = -pool[0]` followed by rebuilding the model: negate exactly the
first chain. -/
def flipFirst (pool : List (List ℝ)) : List (List ℝ) :=
  match pool with
  | [] => []
  | w :: rest => negVec w :: rest

/-- The orientation step at the end of `learn`: build the model from the
pool, and when its agreement with the majority-vote ground truth
(`self.test_model`, an external evaluation abstracted as `test`) is below
0.5, negate the first chain and rebuild — once, with no second test. -/
noncomputable def assembleModel (test : List (List ℝ) → ℝ) (pool : List (List ℝ)) :
    List (List ℝ) :=
  if test pool < 1 / 2 then flipFirst pool else pool

/-- The repeated challenge/response data handed to `__init__` (the training
set class itself lives outside these sources). -/
structure TrainingSet where
  challenges : List (List ℤ)
  responses : List (List ℤ)

/-- Embedding of `ReliabilityBasedCMAES.__init__`: store the parameters,
compute the static PUF reliabilities and the linearized challenges.  The
source contains no shape checks and no raise statements, and the NumPy calls
it makes never compare the response count with the challenge count, so
construction always succeeds; the `Except` return type records that no error
path exists. -/
def rcmaes_init (training_set : TrainingSet) (k n : ℕ)
    (transform : List (List ℤ) → ℕ → List (List (List ℝ)))
    (pop_size : ℕ) (abort_delta : ℚ) (abort_iter : ℕ) : Except String LearnerState :=
  Except.ok
    { k := k
      n := n
      pop_size := pop_size
      abort_delta := abort_delta
      abort_iter := abort_iter
      puf_reliabilities := reliabilities_PUF training_set.responses
      linearized_challenges := transform training_set.challenges k
      current_challenges := [] }

/-- A concrete learner state: two challenges (linearized to `[[2], [1]]`),
oracle reliabilities `[0, 1]`, one stage (`n = 1`). -/
noncomputable def cexState : LearnerState :=
  { k := 1
    n := 1
    pop_size := 2
    abort_delta := 1 / 100
    abort_iter := 10
    puf_reliabilities := [0, 1]
    linearized_challenges := []
    current_challenges := [[2], [1]] }

/-- The same relevant data as `cexState` with different bookkeeping fields. -/
noncomputable def stVariant : LearnerState :=
  { k := 4
    n := 1
    pop_size := 99
    abort_delta := 7
    abort_iter := 500
    puf_reliabilities := [0, 1]
    linearized_challenges := [[[3]]]
    current_challenges := [[2], [1]] }

theorem pyMax_eq_max (a b : ℚ) : pyMax a b = max a b := (max_def a b).symm

theorem pyMin_eq_min (a b : ℚ) : pyMin a b = min a b := (min_def a b).symm

theorem ratAbs_eq_abs (x : ℚ) : ratAbs x = |x| := by
  unfold ratAbs
  split_ifs with h
  · exact (abs_of_neg h).symm
  · exact (abs_of_nonneg (not_lt.mp h)).symm

/-! Basic facts about `listMax`/`listMin`. -/

theorem le_foldl_max (b : ℚ) (l : List ℚ) : b ≤ l.foldl pyMax b := by
  induction l generalizing b with
  | nil => exact le_refl b
  | cons x t ih =>
    rw [List.foldl_cons, pyMax_eq_max]
    exact le_trans (le_max_left b x) (ih (max b x))

theorem foldl_min_le (b : ℚ) (l : List ℚ) : l.foldl pyMin b ≤ b := by
  induction l generalizing b with
  | nil => exact le_refl b
  | cons x t ih =>
    rw [List.foldl_cons, pyMin_eq_min]
    exact le_trans (ih (min b x)) (min_le_left b x)

theorem mem_le_listMax {x : ℚ} {l : List ℚ} (hx : x ∈ l) : x ≤ listMax l := by
  cases l with
  | nil => cases hx
  | cons h t =>
    rw [listMax]
    rcases List.mem_cons.mp hx with rfl | hxt
    · exact le_foldl_max x t
    · clear hx
      induction t generalizing h with
      | nil => cases hxt
      | cons y s ih =>
        rw [List.foldl_cons]
        rcases List.mem_cons.mp hxt with rfl | hys
        · rw [pyMax_eq_max]
          exact le_trans (le_max_right h x) (le_foldl_max (max h x) s)
        · exact ih (pyMax h y) hys

theorem listMin_le_mem {x : ℚ} {l : List ℚ} (hx : x ∈ l) : listMin l ≤ x := by
  cases l with
  | nil => cases hx
  | cons h t =>
    rw [listMin]
    rcases List.mem_cons.mp hx with rfl | hxt
    · exact foldl_min_le x t
    · clear hx
      induction t generalizing h with
      | nil => cases hxt
      | cons y s ih =>
        rw [List.foldl_cons]
        rcases List.mem_cons.mp hxt with rfl | hys
        · rw [pyMin_eq_min]
          exact le_trans (foldl_min_le (min h x) s) (min_le_right h x)
        · exact ih (pyMin h y) hys

theorem listMin_le_listMax {l : List ℚ} (hl : l ≠ []) : listMin l ≤ listMax l := by
  cases l with
  | nil => exact absurd rfl hl
  | cons h t =>
    exact le_trans (listMin_le_mem (List.mem_cons_self h t))
      (mem_le_listMax (List.mem_cons_self h t))

theorem chain'_drop {R : ℚ → ℚ → Prop} :
    ∀ (n : ℕ) (l : List ℚ), l.Chain' R → (l.drop n).Chain' R := by
  intro n
  induction n with
  | zero => intro l h; exact h
  | succ n ih =>
    intro l h
    rw [← List.tail_drop]
    exact List.Chain'.tail (ih l h)

theorem descFrom_chain_sub (n : ℕ) : ∀ q : ℚ, (descFrom q n).Chain' (fun x y => x - y = 1) := by
  induction n with
  | zero => intro q; exact List.chain'_nil
  | succ n ih =>
    intro q
    rw [descFrom, List.chain'_cons']
    refine ⟨?_, ih (q - 1)⟩
    intro y hy
    cases n with
    | zero => rw [descFrom] at hy; cases hy
    | succ m =>
      rw [descFrom, List.head?_cons, Option.mem_def, Option.some.injEq] at hy
      rw [← hy]
      ring

theorem hist101_chain_lt : hist101.Chain' (fun x y : ℚ => y < x) :=
  (descFrom_chain_sub 101 100).imp (fun a b h => by linarith)

theorem hist101_chain_gap : hist101.Chain' (fun x y : ℚ => 1 ≤ x - y) :=
  (descFrom_chain_sub 101 100).imp (fun a b h => by linarith)

theorem descFrom_length (n : ℕ) : ∀ q : ℚ, (descFrom q n).length = n := by
  induction n with
  | zero => intro q; rfl
  | succ n ih => intro q; rw [descFrom, List.length_cons, ih]

theorem descFrom_mem_le (n : ℕ) : ∀ (q x : ℚ), x ∈ descFrom q n → x ≤ q := by
  induction n with
  | zero => intro q x hx; rw [descFrom] at hx; cases hx
  | succ n ih =>
    intro q x hx
    rw [descFrom] at hx
    rcases List.mem_cons.mp hx with rfl | h
    · exact le_refl x
    · have := ih (q - 1) x h
      linarith

theorem foldl_pyMax_of_le (l : List ℚ) : ∀ b, (∀ x ∈ l, x ≤ b) → l.foldl pyMax b = b := by
  induction l with
  | nil => intro b _; rfl
  | cons x t ih =>
    intro b h
    rw [List.foldl_cons]
    have hx : x ≤ b := h x (List.mem_cons_self x t)
    have hb : pyMax b x = b := by
      unfold pyMax
      split_ifs with hbx
      · exact le_antisymm hx hbx
      · rfl
    rw [hb]
    exact ih b (fun y hy => h y (List.mem_cons.mpr (Or.inr hy)))

theorem listMax_descFrom (n : ℕ) (q : ℚ) : listMax (descFrom q (n + 1)) = q := by
  rw [descFrom, listMax]
  exact foldl_pyMax_of_le _ q
    (fun x hx => le_trans (descFrom_mem_le n (q - 1) x hx) (by linarith))

theorem listMin_descFrom (n : ℕ) : ∀ q : ℚ, listMin (descFrom q (n + 1)) = q - n := by
  induction n with
  | zero =>
    intro q
    rw [descFrom, descFrom, listMin]
    simp
  | succ n ih =>
    intro q
    rw [descFrom, descFrom, listMin, List.foldl_cons]
    have h1 : pyMin q (q - 1) = q - 1 := by
      unfold pyMin
      rw [if_neg (by linarith)]
    rw [h1]
    have h2 := ih (q - 1)
    rw [descFrom, listMin] at h2
    rw [h2]
    push_cast
    ring

theorem descFrom_drop (m : ℕ) : ∀ (n : ℕ) (q : ℚ), (descFrom q (m + n)).drop m = descFrom (q - m) n := by
  induction m with
  | zero =>
    intro n q
    simp [Nat.zero_add]
  | succ m ih =>
    intro n q
    have hmn : m.succ + n = (m + n) + 1 := by omega
    rw [hmn, descFrom, List.drop_succ_cons, ih n (q - 1)]
    congr 1
    push_cast
    ring

/-! Facts about sums and counts of `{0,1}`-valued rows. -/

theorem sum_of_const (l : List ℤ) (c : ℤ) (h : ∀ x ∈ l, x = c) :
    l.sum = c * l.length := by
  induction l with
  | nil => simp
  | cons x t ih =>
    have hx : x = c := h x (List.mem_cons_self x t)
    have ht : t.sum = c * t.length := ih (fun y hy => h y (List.mem_cons.mpr (Or.inr hy)))
    rw [List.sum_cons, hx, ht, List.length_cons]
    push_cast
    ring

theorem sum_eq_count_one (l : List ℤ) (h : ∀ x ∈ l, x = 0 ∨ x = 1) :
    l.sum = (l.count 1 : ℤ) := by
  induction l with
  | nil => simp
  | cons x t ih =>
    have ht : t.sum = (t.count 1 : ℤ) := ih (fun y hy => h y (List.mem_cons.mpr (Or.inr hy)))
    rcases h x (List.mem_cons_self x t) with rfl | rfl
    · rw [List.sum_cons, ht]
      simp [List.count_cons]
    · rw [List.sum_cons, ht, List.count_cons]
      simp
      ring

theorem count_one_norm (l : List ℤ) :
    ((l.map (fun x => if x = -1 then (1 : ℤ) else 0)).count 1) = l.count (-1) := by
  induction l with
  | nil => rfl
  | cons x t ih =>
    by_cases hx : x = -1
    · simp [hx, List.count_cons, ih]
    · simp [hx, List.count_cons, ih]

theorem spec_norm01_entries (pm1 : Bool) (row : List ℤ)
    (henc : ∀ x ∈ row, if pm1 then x = 1 ∨ x = -1 else x = 0 ∨ x = 1) :
    ∀ x ∈ spec_norm01 pm1 row, x = 0 ∨ x = 1 := by
  cases pm1 with
  | false =>
    intro x hx
    simp only [spec_norm01, Bool.false_eq_true, if_false] at hx
    have := henc x hx
    simpa using this
  | true =>
    intro x hx
    simp only [spec_norm01, if_true] at hx
    rcases List.mem_map.mp hx with ⟨y, _, rfl⟩
    by_cases hy1 : y = -1
    · right; simp [hy1]
    · left; simp [hy1]

theorem hasNegOne_iff (R : List (List ℤ)) :
    hasNegOne R = true ↔ ∃ row ∈ R, ∃ x ∈ row, x = -1 := by
  simp [hasNegOne, List.any_eq_true]

/-- C4: the stagnation predicate returns `true` exactly when the best-cost
history holds at least 100 entries and the spread (maximum minus minimum) over
the most recent `abort_iter` entries is strictly below `abort_delta`; with
fewer than 100 entries it returns `false` regardless of the window's spread. -/
theorem stagnation_iff (hist : List ℚ) (a : ℕ) (δ : ℚ) (ha : 1 ≤ a) :
    is_iteration_stagnated a δ hist = true ↔
      100 ≤ hist.length ∧
        listMax (hist.drop (hist.length - a)) - listMin (hist.drop (hist.length - a)) < δ := by
  have hne : a ≠ 0 := by omega
  by_cases hlen : hist.length < 100
  · simp only [is_iteration_stagnated, pySliceLast, if_neg hne, if_pos hlen]
    constructor
    · intro h; exact absurd h Bool.false_ne_true
    · intro h; exact absurd h.1 (by omega)
  · have h100 : 100 ≤ hist.length := not_lt.mp hlen
    have hw : hist.drop (hist.length - a) ≠ [] := by
      intro hnil
      have hl := congrArg List.length hnil
      rw [List.length_drop] at hl
      simp only [List.length_nil] at hl
      omega
    have habs : ratAbs (listMax (hist.drop (hist.length - a))
          - listMin (hist.drop (hist.length - a)))
        = listMax (hist.drop (hist.length - a)) - listMin (hist.drop (hist.length - a)) := by
      rw [ratAbs_eq_abs]
      exact abs_of_nonneg (sub_nonneg.mpr (listMin_le_listMax hw))
    simp only [is_iteration_stagnated, pySliceLast, if_neg hne, if_neg hlen, habs]
    by_cases hc :
        listMax (hist.drop (hist.length - a)) - listMin (hist.drop (hist.length - a)) < δ
    · simp only [if_pos hc]
      exact iff_of_true (by trivial) ⟨h100, hc⟩
    · simp only [if_neg hc]
      constructor
      · intro h; exact absurd h Bool.false_ne_true
      · intro h; exact absurd h.2 hc

/-- C4 witness: a constant history of exactly 100 entries with window 10 and
threshold 1 is declared stagnated, matching the characterization. -/
theorem stagnation_iff_witness :
    1 ≤ 10 ∧
      (is_iteration_stagnated 10 1 (List.replicate 100 (0 : ℚ)) = true ↔
        100 ≤ (List.replicate 100 (0 : ℚ)).length ∧
          listMax ((List.replicate 100 (0 : ℚ)).drop ((List.replicate 100 (0 : ℚ)).length - 10))
            - listMin ((List.replicate 100 (0 : ℚ)).drop
                ((List.replicate 100 (0 : ℚ)).length - 10)) < 1) :=
  ⟨by decide, stagnation_iff (List.replicate 100 (0 : ℚ)) 10 1 (by decide)⟩

/-- C5 counterexample: a strictly monotonically decreasing cost history of
length 101 does trigger stagnation for `abort_iter = 10` and
`abort_delta = 1000`, refuting the claim that such a history never triggers
stagnation whatever the values of `abort_iter` and `abort_delta` are. -/
theorem stagnation_strict_decrease_cex :
    hist101.Chain' (fun x y : ℚ => y < x) ∧ 100 < hist101.length ∧
      is_iteration_stagnated 10 1000 hist101 = true := by
  refine ⟨hist101_chain_lt, by decide, ?_⟩
  have hlen : hist101.length = 101 := by
    rw [hist101]
    exact descFrom_length 101 100
  have hwin : hist101.drop (hist101.length - 10) = descFrom 9 10 := by
    rw [hlen, hist101]
    have h := descFrom_drop 91 10 100
    norm_num at h ⊢
    exact h
  have h10 : ¬((10 : ℕ) = 0) := by decide
  simp only [is_iteration_stagnated, pySliceLast, if_neg h10]
  rw [hwin, hlen]
  have hM := listMax_descFrom 9 9
  have hm := listMin_descFrom 9 9
  norm_num at hM hm
  rw [if_neg (by norm_num : ¬(101 < 100)), hM, hm]
  rw [if_pos (by rw [ratAbs_eq_abs]; norm_num)]

/-- C5 amended: a strictly decreasing cost history of length greater than 100
never triggers stagnation provided each consecutive step decreases by at least
`abort_delta` and the window size `abort_iter` is at least 2. -/
theorem stagnation_strict_decrease (hist : List ℚ) (a : ℕ) (δ : ℚ)
    (hdec : hist.Chain' (fun x y => y < x))
    (hgap : hist.Chain' (fun x y => δ ≤ x - y))
    (ha : 2 ≤ a) (hlen : 100 < hist.length) :
    is_iteration_stagnated a δ hist = false := by
  have hne : a ≠ 0 := by omega
  have hwlen : 2 ≤ (hist.drop (hist.length - a)).length := by
    rw [List.length_drop]; omega
  have hwchain : (hist.drop (hist.length - a)).Chain' (fun x y => δ ≤ x - y) :=
    chain'_drop (hist.length - a) hist hgap
  simp only [is_iteration_stagnated, pySliceLast, if_neg hne,
    if_neg (not_lt.mpr (le_of_lt hlen))]
  cases hw : hist.drop (hist.length - a) with
  | nil => rw [hw] at hwlen; simp at hwlen
  | cons p w1 =>
    cases w1 with
    | nil => rw [hw] at hwlen; simp at hwlen
    | cons q t =>
      rw [hw] at hwchain
      have hpq : δ ≤ p - q := (List.chain'_cons.mp hwchain).1
      have hpM : p ≤ listMax (p :: q :: t) := mem_le_listMax (List.mem_cons_self p (q :: t))
      have hqm : listMin (p :: q :: t) ≤ q :=
        listMin_le_mem (List.mem_cons.mpr (Or.inr (List.mem_cons_self q t)))
      have hspread : δ ≤ ratAbs (listMax (p :: q :: t) - listMin (p :: q :: t)) := by
        rw [ratAbs_eq_abs]
        exact le_trans hpq (le_trans (by linarith) (le_abs_self _))
      rw [if_neg (not_lt.mpr hspread)]

/-- C5 witness: the concrete strictly decreasing history of length 101 with
window 2 and threshold 1 (each step decreases by exactly 1) is not declared
stagnated. -/
theorem stagnation_strict_decrease_witness :
    hist101.Chain' (fun x y : ℚ => y < x) ∧ hist101.Chain' (fun x y : ℚ => 1 ≤ x - y) ∧
      2 ≤ 2 ∧ 100 < hist101.length ∧ is_iteration_stagnated 2 1 hist101 = false :=
  ⟨hist101_chain_lt, hist101_chain_gap, by decide, by decide,
    stagnation_strict_decrease hist101 2 1 hist101_chain_lt hist101_chain_gap
      (by decide) (by decide)⟩

/-- C6: for a response matrix with uniform row length `m`, encoded either in
`{0,1}` (`pm1 = false`) or in `{+1,-1}` (`pm1 = true`), `reliabilities_PUF`
returns per challenge `abs(m/2 - s)` where `s` is the row sum after
normalization to `{0,1}`; an all-agreeing row scores the maximum `m/2` and a
50/50-split row scores `0`. -/
theorem reliabilities_PUF_spec (R : List (List ℤ)) (m : ℕ) (pm1 : Bool)
    (hm : ∀ row ∈ R, row.length = m)
    (henc : ∀ row ∈ R, ∀ x ∈ row, if pm1 then x = 1 ∨ x = -1 else x = 0 ∨ x = 1) :
    reliabilities_PUF R = R.map (fun row => |(m : ℚ) / 2 - ((spec_norm01 pm1 row).sum : ℚ)|)
    ∧ (∀ row ∈ R, (∀ x ∈ row, ∀ y ∈ row, x = y) →
        |(m : ℚ) / 2 - ((spec_norm01 pm1 row).sum : ℚ)| = (m : ℚ) / 2)
    ∧ (∀ row ∈ R, 2 * row.count (if pm1 then (-1 : ℤ) else 1) = m →
        |(m : ℚ) / 2 - ((spec_norm01 pm1 row).sum : ℚ)| = 0) := by
  refine ⟨?_, ?_, ?_⟩
  · -- main equality with the spec-side formula
    cases pm1 with
    | false =>
      have hno : hasNegOne R = false := by
        rw [← Bool.not_eq_true, hasNegOne_iff]
        rintro ⟨row, hr, x, hx, rfl⟩
        have h1 := henc row hr _ hx
        simp only [Bool.false_eq_true, if_false] at h1
        rcases h1 with h1 | h1 <;> exact absurd h1 (by norm_num)
      simp only [reliabilities_PUF, hno, Bool.false_eq_true, if_false]
      cases R with
      | nil => rfl
      | cons r rest =>
        have hhead : (List.headD (r :: rest) ([] : List ℤ)).length = m := by
          simpa using hm r (List.mem_cons_self r rest)
        rw [hhead]
        simp [spec_norm01]
    | true =>
      cases hh : hasNegOne R with
      | true =>
        simp only [reliabilities_PUF, hh, if_true, transform_challenge_11_to_01]
        cases R with
        | nil => rfl
        | cons r rest =>
          have hhead :
              (List.headD ((r :: rest).map
                (fun row => row.map (fun x => if x = 1 then 0 else if x = -1 then 1 else x)))
                ([] : List ℤ)).length = m := by
            simpa using hm r (List.mem_cons_self r rest)
          rw [hhead, List.map_map]
          apply List.map_congr_left
          intro row hrow
          have hrw :
              row.map (fun x => if x = 1 then (0 : ℤ) else if x = -1 then 1 else x)
                = spec_norm01 true row := by
            simp only [spec_norm01, if_true]
            apply List.map_congr_left
            intro x hx
            have h1 := henc row hrow x hx
            simp only [if_true] at h1
            rcases h1 with rfl | rfl <;> norm_num
          simp only [Function.comp]
          rw [hrw]
      | false =>
        have hall1 : ∀ row ∈ R, ∀ x ∈ row, x = (1 : ℤ) := by
          intro row hr x hx
          have h1 := henc row hr x hx
          simp only [if_true] at h1
          rcases h1 with h1 | h1
          · exact h1
          · exfalso
            have : hasNegOne R = true := (hasNegOne_iff R).mpr ⟨row, hr, x, hx, h1⟩
            rw [hh] at this
            exact absurd this Bool.false_ne_true
        simp only [reliabilities_PUF, hh, Bool.false_eq_true, if_false]
        cases R with
        | nil => rfl
        | cons r rest =>
          have hhead : (List.headD (r :: rest) ([] : List ℤ)).length = m := by
            simpa using hm r (List.mem_cons_self r rest)
          rw [hhead]
          apply List.map_congr_left
          intro row hrow
          have hsum1 : row.sum = (m : ℤ) := by
            rw [sum_of_const row 1 (hall1 row hrow), hm row hrow]
            ring
          have hsum0 : (spec_norm01 true row).sum = 0 := by
            apply List.sum_eq_zero
            intro x hx
            simp only [spec_norm01, if_true] at hx
            rcases List.mem_map.mp hx with ⟨y, hy, rfl⟩
            have := hall1 row hrow y hy
            simp [this]
          rw [hsum1, hsum0]
          push_cast
          rw [show (m : ℚ) / 2 - (m : ℚ) = -((m : ℚ) / 2) by ring, abs_neg, sub_zero]
  · -- all-agreeing rows score m/2
    intro row hr hcon
    have hlen := hm row hr
    have hsum : ((spec_norm01 pm1 row).sum = 0) ∨ ((spec_norm01 pm1 row).sum = (m : ℤ)) := by
      cases hrow : row with
      | nil =>
        left
        cases pm1 <;> simp [spec_norm01]
      | cons h t =>
        rw [← hrow]
        have hhm : h ∈ row := by rw [hrow]; exact List.mem_cons_self h t
        have hval := henc row hr h hhm
        have hall : ∀ x ∈ row, x = h := fun x hx => hcon x hx h hhm
        cases pm1 with
        | false =>
          simp only [Bool.false_eq_true, if_false] at hval
          simp only [spec_norm01, Bool.false_eq_true, if_false]
          rcases hval with rfl | rfl
          · left
            exact List.sum_eq_zero hall
          · right
            rw [sum_of_const row 1 hall, hlen]
            ring
        | true =>
          simp only [if_true] at hval
          rcases hval with rfl | rfl
          · left
            apply List.sum_eq_zero
            intro x hx
            simp only [spec_norm01, if_true] at hx
            rcases List.mem_map.mp hx with ⟨y, hy, rfl⟩
            rw [hall y hy]
            norm_num
          · right
            have hc : ∀ x ∈ spec_norm01 true row, x = (1 : ℤ) := by
              intro x hx
              simp only [spec_norm01, if_true] at hx
              rcases List.mem_map.mp hx with ⟨y, hy, rfl⟩
              rw [hall y hy]
              norm_num
            rw [sum_of_const _ 1 hc]
            have hlen2 : (spec_norm01 true row).length = m := by
              simp [spec_norm01, hlen]
            rw [hlen2]
            ring
    rcases hsum with h0 | hm'
    · rw [h0, Int.cast_zero, sub_zero, abs_of_nonneg (by positivity)]
    · rw [hm']
      push_cast
      rw [show (m : ℚ) / 2 - (m : ℚ) = -((m : ℚ) / 2) by ring, abs_neg,
        abs_of_nonneg (by positivity)]
  · -- 50/50-split rows score 0
    intro row hr hcnt
    have hsum : (spec_norm01 pm1 row).sum = ((spec_norm01 pm1 row).count 1 : ℤ) :=
      sum_eq_count_one _ (spec_norm01_entries pm1 row (henc row hr))
    have hcount : (spec_norm01 pm1 row).count 1 = row.count (if pm1 then (-1 : ℤ) else 1) := by
      cases pm1 with
      | false => simp [spec_norm01]
      | true => simp [spec_norm01, count_one_norm]
    have hq : ((spec_norm01 pm1 row).sum : ℚ) = (m : ℚ) / 2 := by
      rw [hsum, hcount]
      have : ((2 * row.count (if pm1 then (-1 : ℤ) else 1) : ℕ) : ℚ) = ((m : ℕ) : ℚ) := by
        exact_mod_cast congrArg (fun n : ℕ => (n : ℚ)) hcnt
      push_cast at this ⊢
      linarith
    rw [hq, sub_self, abs_zero]

/-- C6 witness: the `{+1,-1}`-encoded matrix `[[1,-1],[1,1]]` (one 50/50 row,
one all-agreeing row) satisfies the hypotheses and the characterization. -/
theorem reliabilities_PUF_spec_witness :
    (∀ row ∈ [[(1 : ℤ), -1], [1, 1]], row.length = 2)
    ∧ (∀ row ∈ [[(1 : ℤ), -1], [1, 1]], ∀ x ∈ row,
        if true then x = 1 ∨ x = -1 else x = 0 ∨ x = 1)
    ∧ (reliabilities_PUF [[(1 : ℤ), -1], [1, 1]]
          = [[(1 : ℤ), -1], [1, 1]].map
              (fun row => |((2 : ℕ) : ℚ) / 2 - ((spec_norm01 true row).sum : ℚ)|)
        ∧ (∀ row ∈ [[(1 : ℤ), -1], [1, 1]], (∀ x ∈ row, ∀ y ∈ row, x = y) →
            |((2 : ℕ) : ℚ) / 2 - ((spec_norm01 true row).sum : ℚ)| = ((2 : ℕ) : ℚ) / 2)
        ∧ (∀ row ∈ [[(1 : ℤ), -1], [1, 1]], 2 * row.count (if true then (-1 : ℤ) else 1) = 2 →
            |((2 : ℕ) : ℚ) / 2 - ((spec_norm01 true row).sum : ℚ)| = 0)) :=
  ⟨by decide, by decide,
    reliabilities_PUF_spec [[(1 : ℤ), -1], [1, 1]] 2 true (by decide) (by decide)⟩

/-! Cauchy–Schwarz for `dotR`, and the resulting correlation bound. -/

theorem sumSq_nonneg (l : List ℝ) : 0 ≤ sumSq l := by
  induction l with
  | nil => simp [sumSq]
  | cons x t ih =>
    simp only [sumSq, List.map_cons, List.sum_cons]
    have := sq_nonneg x
    simp only [sumSq] at ih
    nlinarith

theorem dotR_sq_le (a : List ℝ) : ∀ b, (dotR a b) ^ 2 ≤ sumSq a * sumSq b := by
  induction a with
  | nil =>
    intro b
    simp [dotR, sumSq]
  | cons x a' ih =>
    intro b
    cases b with
    | nil =>
      simp [dotR, sumSq]
    | cons y b' =>
      have IH := ih b'
      have hSa : 0 ≤ sumSq a' := sumSq_nonneg a'
      have hSb : 0 ≤ sumSq b' := sumSq_nonneg b'
      have hda : dotR (x :: a') (y :: b') = x * y + dotR a' b' := by
        simp [dotR]
      have hsa : sumSq (x :: a') = x ^ 2 + sumSq a' := by
        simp [sumSq]
      have hsb : sumSq (y :: b') = y ^ 2 + sumSq b' := by
        simp [sumSq]
      rw [hda, hsa, hsb]
      rcases eq_or_lt_of_le hSa with hSa0 | hSa0
      · have hd2 : (dotR a' b') ^ 2 = 0 := by
          have h1 : (dotR a' b') ^ 2 ≤ 0 := by
            rw [← hSa0] at IH
            simpa using IH
          exact le_antisymm h1 (sq_nonneg _)
        have hd0 : dotR a' b' = 0 := (pow_eq_zero_iff (two_ne_zero)).mp hd2
        rw [hd0, ← hSa0]
        nlinarith [mul_nonneg (sq_nonneg x) hSb]
      · nlinarith [sq_nonneg (x * dotR a' b' - sumSq a' * y),
          mul_nonneg (sq_nonneg x) (sub_nonneg.mpr IH),
          mul_nonneg hSa (sub_nonneg.mpr IH)]

theorem abs_corr_le_one {x y : List ℝ} {c : ℝ} (h : tf_pearsonr x y = some c) : |c| ≤ 1 := by
  unfold tf_pearsonr at h
  by_cases h0 : Real.sqrt (sumSq (centered x) * sumSq (centered y)) = 0
  · rw [if_pos h0] at h
    cases h
  · rw [if_neg h0] at h
    have hc := Option.some.inj h
    have hprod : 0 ≤ sumSq (centered x) * sumSq (centered y) :=
      mul_nonneg (sumSq_nonneg _) (sumSq_nonneg _)
    have hpos : 0 < Real.sqrt (sumSq (centered x) * sumSq (centered y)) :=
      lt_of_le_of_ne (Real.sqrt_nonneg _) (Ne.symm h0)
    have hcov : (dotR (centered y) (centered x)) ^ 2
        ≤ sumSq (centered x) * sumSq (centered y) := by
      have := dotR_sq_le (centered y) (centered x)
      linarith [this, mul_comm (sumSq (centered y)) (sumSq (centered x))]
    rw [← hc, abs_div, abs_of_pos hpos, div_le_one hpos]
    have habs : |dotR (centered y) (centered x)|
        = Real.sqrt ((dotR (centered y) (centered x)) ^ 2) :=
      (Real.sqrt_sq_eq_abs _).symm
    rw [habs]
    exact Real.sqrt_le_sqrt hcov

/-! Symmetry and sign behaviour of the correlation. -/

theorem dotR_comm (a b : List ℝ) : dotR a b = dotR b a := by
  unfold dotR
  rw [List.zipWith_comm_of_comm _ (fun s t => mul_comm s t)]

theorem tf_pearsonr_comm (x y : List ℝ) : tf_pearsonr x y = tf_pearsonr y x := by
  unfold tf_pearsonr
  rw [dotR_comm, mul_comm (sumSq (centered x)) (sumSq (centered y))]

theorem sum_negVec (l : List ℝ) : (negVec l).sum = -l.sum := by
  induction l with
  | nil => simp [negVec]
  | cons x t ih =>
    simp only [negVec, List.map_cons, List.sum_cons] at ih ⊢
    rw [ih]
    ring

theorem listMean_neg (l : List ℝ) : listMean (negVec l) = -listMean l := by
  unfold listMean
  rw [sum_negVec]
  have : (negVec l).length = l.length := by simp [negVec]
  rw [this]
  ring

theorem centered_neg (l : List ℝ) : centered (negVec l) = negVec (centered l) := by
  unfold centered negVec
  rw [List.map_map, List.map_map]
  apply List.map_congr_left
  intro z _
  simp only [Function.comp]
  rw [show listMean (List.map (fun x => -x) l) = listMean (negVec l) from rfl, listMean_neg]
  ring

theorem dotR_neg_right (a : List ℝ) : ∀ b, dotR a (negVec b) = -dotR a b := by
  induction a with
  | nil => intro b; simp [dotR]
  | cons x t ih =>
    intro b
    cases b with
    | nil => simp [dotR, negVec]
    | cons y s =>
      have := ih s
      simp only [negVec, List.map_cons, dotR, List.zipWith_cons_cons, List.sum_cons] at this ⊢
      rw [this]
      ring

theorem sumSq_negVec (l : List ℝ) : sumSq (negVec l) = sumSq l := by
  unfold sumSq negVec
  rw [List.map_map]
  apply congrArg
  apply List.map_congr_left
  intro z _
  simp only [Function.comp]
  ring

theorem tf_pearsonr_neg_left (x y : List ℝ) :
    tf_pearsonr (negVec x) y = (tf_pearsonr x y).map (fun c => -c) := by
  unfold tf_pearsonr
  rw [centered_neg, dotR_neg_right, sumSq_negVec]
  by_cases h0 : Real.sqrt (sumSq (centered x) * sumSq (centered y)) = 0
  · rw [if_pos h0, if_pos h0]
    rfl
  · rw [if_neg h0, if_neg h0]
    simp [neg_div]

theorem corrExceedsHalf_comm (w v : List ℝ) : corrExceedsHalf w v ↔ corrExceedsHalf v w := by
  unfold corrExceedsHalf pearsonr
  rw [tf_pearsonr_comm]

theorem corrExceedsHalf_neg_left (w v : List ℝ) :
    corrExceedsHalf (negVec w) v ↔ corrExceedsHalf w v := by
  unfold corrExceedsHalf pearsonr
  rw [tf_pearsonr_neg_left]
  cases hp : tf_pearsonr w v with
  | none => simp
  | some a =>
    constructor
    · rintro ⟨c, hc1, hc2⟩
      rw [Option.map_some'] at hc1
      have hca : -a = c := Option.some.inj hc1
      refine ⟨a, rfl, ?_⟩
      rw [← hca, abs_neg] at hc2
      exact hc2
    · rintro ⟨c, hc1, hc2⟩
      have hca : a = c := Option.some.inj hc1
      refine ⟨-a, by rw [Option.map_some'], ?_⟩
      rw [abs_neg, hca]
      exact hc2

/-! The deduplication invariant is preserved by every loop iteration and by
the final orientation flip. -/

theorem addChainAttempt_preserves (k : ℕ) (pool : List (List ℝ)) (c : List ℝ)
    (h : PoolOK pool) : PoolOK (addChainAttempt k pool c) := by
  unfold addChainAttempt
  split_ifs with h1 h2
  · unfold PoolOK at h ⊢
    rw [List.pairwise_append]
    refine ⟨h, List.pairwise_singleton _ _, ?_⟩
    intro a ha b hb
    have hb' : b = canonicalize c.dropLast := by simpa using hb
    subst hb'
    intro hcor
    exact h2 a ha ((corrExceedsHalf_comm _ _).mp hcor)
  · exact h
  · exact h

theorem learnPool_ok (k : ℕ) (cands : List (List ℝ)) : PoolOK (learnPool k cands) := by
  unfold learnPool
  have h : ∀ pool, PoolOK pool → PoolOK (cands.foldl (addChainAttempt k) pool) := by
    induction cands with
    | nil => intro pool hp; exact hp
    | cons c t ih =>
      intro pool hp
      exact ih _ (addChainAttempt_preserves k pool c hp)
  exact h [] List.Pairwise.nil

theorem flipFirst_ok (pool : List (List ℝ)) (h : PoolOK pool) : PoolOK (flipFirst pool) := by
  cases pool with
  | nil => exact h
  | cons w rest =>
    show PoolOK (negVec w :: rest)
    unfold PoolOK at h ⊢
    rw [List.pairwise_cons] at h ⊢
    refine ⟨?_, h.2⟩
    intro b hb hcor
    exact h.1 b hb ((corrExceedsHalf_neg_left w b).mp hcor)

/-! Concrete evaluations used by the counterexamples: a model reliability
indicator perfectly anticorrelated with the oracle reliabilities, and a
degenerate (constant) indicator. -/

theorem centered_one_zero : centered [(1 : ℝ), 0] = [1 / 2, -(1 / 2)] := by
  norm_num [centered, listMean]

theorem centered_zero_one : centered [(0 : ℝ), 1] = [-(1 / 2), 1 / 2] := by
  norm_num [centered, listMean]

theorem tf_pearsonr_anti : tf_pearsonr [(1 : ℝ), 0] [(0 : ℝ), 1] = some (-1) := by
  unfold tf_pearsonr
  rw [centered_one_zero, centered_zero_one]
  have h1 : sumSq [(1 : ℝ) / 2, -(1 / 2)] = 1 / 2 := by norm_num [sumSq]
  have h2 : sumSq [-((1 : ℝ) / 2), 1 / 2] = 1 / 2 := by norm_num [sumSq]
  have hdot : dotR [-((1 : ℝ) / 2), 1 / 2] [(1 : ℝ) / 2, -(1 / 2)] = -(1 / 2) := by
    norm_num [dotR]
  have hsqrt : Real.sqrt ((1 : ℝ) / 2 * (1 / 2)) = 1 / 2 := by
    rw [show (1 : ℝ) / 2 * (1 / 2) = (1 / 2) ^ 2 by ring]
    exact Real.sqrt_sq (by norm_num)
  rw [h1, h2, hdot, hsqrt, if_neg (by norm_num)]
  norm_num

theorem tf_pearsonr_degenerate (y : List ℝ) : tf_pearsonr [(0 : ℝ), 0] y = none := by
  unfold tf_pearsonr
  have hc : centered [(0 : ℝ), 0] = [0, 0] := by norm_num [centered, listMean]
  rw [hc]
  have h0 : sumSq [(0 : ℝ), 0] = 0 := by norm_num [sumSq]
  rw [h0, zero_mul, Real.sqrt_zero, if_pos rfl]

theorem pufY_cexState : pufY cexState = [0, 1] := by
  simp [pufY, cexState]

theorem modelReliability_anti : modelReliability cexState [1, 3 / 2] = [1, 0] := by
  have habs2 : |(2 : ℝ)| = 2 := abs_of_nonneg (by norm_num)
  have habs1 : |(1 : ℝ)| = 1 := abs_of_nonneg (by norm_num)
  have hdd : delayDiffs cexState [(1 : ℝ)] = [2, 1] := by
    norm_num [delayDiffs, cexState, dotR]
  have htake : (([1, 3 / 2] : List ℝ).take cexState.n) = [(1 : ℝ)] := by
    show ([1, 3 / 2] : List ℝ).take 1 = [(1 : ℝ)]
    rfl
  have hlast : (([1, 3 / 2] : List ℝ).getLastD 0) = 3 / 2 := rfl
  unfold modelReliability
  rw [htake, hlast, hdd]
  unfold reliabilities_MODEL
  have hb1 : decide ((3 : ℝ) / 2 < |(2 : ℝ)|) = true := by
    rw [habs2]
    exact decide_eq_true (by norm_num)
  have hb2 : decide ((3 : ℝ) / 2 < |(1 : ℝ)|) = false := by
    rw [habs1]
    exact decide_eq_false (by norm_num)
  simp only [List.map_cons, List.map_nil, hb1, hb2]
  norm_num

theorem modelReliability_degenerate : modelReliability cexState [0, 2] = [0, 0] := by
  have habs0 : |(0 : ℝ)| = 0 := abs_of_nonneg (by norm_num)
  have hdd : delayDiffs cexState [(0 : ℝ)] = [0, 0] := by
    norm_num [delayDiffs, cexState, dotR]
  have htake : (([0, 2] : List ℝ).take cexState.n) = [(0 : ℝ)] := by
    show ([0, 2] : List ℝ).take 1 = [(0 : ℝ)]
    rfl
  have hlast : (([0, 2] : List ℝ).getLastD 0) = 2 := rfl
  unfold modelReliability
  rw [htake, hlast, hdd]
  unfold reliabilities_MODEL
  have hb : decide ((2 : ℝ) < |(0 : ℝ)|) = false := by
    rw [habs0]
    exact decide_eq_false (by norm_num)
  simp only [List.map_cons, List.map_nil, hb]
  norm_num

theorem pearson_cex_helper :
    tf_pearsonr (modelReliability cexState [1, 3 / 2]) (pufY cexState) = some (-1) := by
  rw [modelReliability_anti, pufY_cexState]
  exact tf_pearsonr_anti

theorem reliabilities_PUF_length (R : List (List ℤ)) :
    (reliabilities_PUF R).length = R.length := by
  unfold reliabilities_PUF
  split_ifs with h <;> simp [transform_challenge_11_to_01]

/-- C1 counterexample: a candidate whose model reliability indicator is
perfectly anticorrelated (correlation exactly `-1`) with the oracle
reliability vector receives cost `abs(1 - corr) = 2` from the code, while the
claimed formula `1 - abs(corr)` yields `0`. -/
theorem objective_cost_cex :
    objective cexState [[1, 3 / 2]] = [some 2]
    ∧ tf_pearsonr (modelReliability cexState [1, 3 / 2]) (pufY cexState) = some (-1)
    ∧ claimedCost (-1) = 0
    ∧ (2 : ℝ) ≠ 0 := by
  refine ⟨?_, pearson_cex_helper, by norm_num [claimedCost], by norm_num⟩
  simp only [objective, List.map_cons, List.map_nil]
  unfold objCand
  rw [pearson_cex_helper, Option.map_some']
  rw [show (1 : ℝ) - (-1) = 2 by norm_num, abs_of_nonneg (by norm_num : (0 : ℝ) ≤ 2)]

/-- C1 amended: for a candidate whose correlation with the oracle reliability
vector is defined (value `c`), the objective returns `abs(1 - c) = 1 - c`
(since `c ≤ 1` by Cauchy–Schwarz); this agrees with the claimed `1 - abs(c)`
exactly when `c ≥ 0`, and disagrees for every negative correlation — perfect
anticorrelation costs 2, not 0. -/
theorem objective_cost_eq (st : LearnerState) (cand : List ℝ) (c : ℝ)
    (hc : tf_pearsonr (modelReliability st cand) (pufY st) = some c) :
    objCand st cand = some (|1 - c|) ∧ |1 - c| = 1 - c
    ∧ (0 ≤ c → objCand st cand = some (claimedCost c))
    ∧ (c < 0 → objCand st cand ≠ some (claimedCost c)) := by
  have hle := abs_corr_le_one hc
  have hc1 : c ≤ 1 := le_trans (le_abs_self c) hle
  have habs : |1 - c| = 1 - c := abs_of_nonneg (by linarith)
  have hval : objCand st cand = some (|1 - c|) := by
    unfold objCand
    rw [hc, Option.map_some']
  refine ⟨hval, habs, ?_, ?_⟩
  · intro h0
    rw [hval, habs]
    unfold claimedCost
    rw [abs_of_nonneg h0]
  · intro hneg
    rw [hval, habs]
    unfold claimedCost
    intro heq
    have h2 := Option.some.inj heq
    rw [abs_of_neg hneg] at h2
    have hc0 : c = 0 := by linarith
    exact absurd hc0 (ne_of_lt hneg)

/-- C1 witness: the anticorrelated candidate of `cexState` instantiates the
amended statement with `c = -1`. -/
theorem objective_cost_eq_witness :
    tf_pearsonr (modelReliability cexState [1, 3 / 2]) (pufY cexState) = some (-1)
    ∧ (objCand cexState [1, 3 / 2] = some (|1 - (-1 : ℝ)|)
      ∧ |1 - (-1 : ℝ)| = 1 - (-1 : ℝ)
      ∧ (0 ≤ (-1 : ℝ) → objCand cexState [1, 3 / 2] = some (claimedCost (-1)))
      ∧ ((-1 : ℝ) < 0 → objCand cexState [1, 3 / 2] ≠ some (claimedCost (-1)))) :=
  ⟨pearson_cex_helper, objective_cost_eq cexState [1, 3 / 2] (-1) pearson_cex_helper⟩

/-- C2 (code-bug evidence): in a population holding a zero-variance candidate
(weights `[0]`, so the reliability indicator is constant) and a well-behaved
candidate, the code produces NaN (modelled `none`) for the degenerate
candidate rather than any defined (e.g. maximal) cost, while the other
candidate still receives a value. -/
theorem objective_degenerate_nan :
    objective cexState [[0, 2], [1, 3 / 2]] = [none, some 2] := by
  have h1 : objCand cexState [0, 2] = none := by
    unfold objCand
    rw [modelReliability_degenerate, pufY_cexState, tf_pearsonr_degenerate]
    rfl
  have h2 : objCand cexState [1, 3 / 2] = some 2 := by
    unfold objCand
    rw [pearson_cex_helper, Option.map_some']
    rw [show (1 : ℝ) - (-1) = 2 by norm_num, abs_of_nonneg (by norm_num : (0 : ℝ) ≤ 2)]
  simp only [objective, List.map_cons, List.map_nil, h1, h2]

/-- C3: the chain pool never holds two distinct members whose absolute
Pearson correlation exceeds 0.5: every intermediate pool of the learn loop
(`learnPool k (cands.take t)` for any prefix) satisfies the invariant, the
final orientation flip of the first chain preserves it, and an attempt
appends (the canonicalized, epsilon-stripped) `c` only when the pool is not
yet full and no comparison against an existing member exceeds 0.5. -/
theorem pool_correlation_invariant (k : ℕ) (cands : List (List ℝ)) :
    PoolOK (learnPool k cands) ∧ PoolOK (flipFirst (learnPool k cands))
    ∧ ∀ (pool : List (List ℝ)) (c : List ℝ),
        addChainAttempt k pool c = pool ∨
          (pool.length < k ∧ (∀ v ∈ pool, ¬ corrExceedsHalf (canonicalize c.dropLast) v)
            ∧ addChainAttempt k pool c = pool ++ [canonicalize c.dropLast]) := by
  refine ⟨learnPool_ok k cands, flipFirst_ok _ (learnPool_ok k cands), ?_⟩
  intro pool c
  unfold addChainAttempt
  split_ifs with h1 h2
  · exact Or.inr ⟨h1, h2, rfl⟩
  · exact Or.inl rfl
  · exact Or.inl rfl

/-- C7 counterexample: `w = [0, 5]` has non-negative first element, yet
canonicalizing its negation returns `[0, -5]`, not `w`: the claimed
round-trip fails when the first element is zero. -/
theorem canonicalize_neg_cex :
    ((0 : ℝ) ≤ ([0, 5] : List ℝ).headD 0)
    ∧ canonicalize (negVec [0, 5]) ≠ [(0 : ℝ), 5] := by
  constructor
  · simp
  · have h1 : negVec [(0 : ℝ), 5] = [0, -5] := by norm_num [negVec]
    rw [h1]
    have h2 : canonicalize [(0 : ℝ), -5] = [0, -5] := by
      unfold canonicalize
      rw [if_neg (by norm_num : ¬(([0, -5] : List ℝ).headD 0 < 0))]
    rw [h2]
    intro heq
    simp at heq
    norm_num at heq

/-- C7 amended: canonicalizing a vector with non-negative first element
returns it unchanged, and canonicalizing the negation of a vector with
strictly positive first element returns the original. -/
theorem canonicalize_spec (w : List ℝ) :
    (0 ≤ w.headD 0 → canonicalize w = w)
    ∧ (0 < w.headD 0 → canonicalize (negVec w) = w) := by
  constructor
  · intro h
    unfold canonicalize
    rw [if_neg (not_lt.mpr h)]
  · intro h
    unfold canonicalize
    have hh : (negVec w).headD 0 = -(w.headD 0) := by
      cases w with
      | nil => simp [negVec]
      | cons x t => simp [negVec]
    rw [hh, if_pos (by linarith)]
    unfold negVec
    rw [List.map_map]
    have hcomp : ((fun x : ℝ => -x) ∘ (fun x : ℝ => -x)) = id := by
      funext z
      simp
    rw [hcomp, List.map_id]

/-- C7 witness: `w = [2, -3]` — already canonical, and the negation
round-trips. -/
theorem canonicalize_spec_witness :
    ((0 : ℝ) ≤ ([2, -3] : List ℝ).headD 0)
    ∧ ((0 : ℝ) < ([2, -3] : List ℝ).headD 0)
    ∧ canonicalize [(2 : ℝ), -3] = [2, -3]
    ∧ canonicalize (negVec [(2 : ℝ), -3]) = [2, -3] :=
  ⟨by norm_num, by norm_num, (canonicalize_spec [2, -3]).1 (by norm_num),
    (canonicalize_spec [2, -3]).2 (by norm_num)⟩

/-- C8: the orientation correction is applied at most once: all chains after
the first are unchanged, the result is exactly `flipFirst pool` when the
agreement test is below 0.5 (whatever the flipped model would test as — no
second flip) and exactly `pool` otherwise. -/
theorem orientation_flip_once (test : List (List ℝ) → ℝ) (pool : List (List ℝ)) :
    (assembleModel test pool).drop 1 = pool.drop 1
    ∧ (test pool < 1 / 2 → assembleModel test pool = flipFirst pool)
    ∧ (¬ test pool < 1 / 2 → assembleModel test pool = pool)
    ∧ (assembleModel test pool = pool ∨ assembleModel test pool = flipFirst pool) := by
  unfold assembleModel
  split_ifs with h
  · refine ⟨?_, fun _ => rfl, fun hn => absurd h hn, Or.inr rfl⟩
    cases pool with
    | nil => rfl
    | cons w rest => rfl
  · exact ⟨rfl, fun hl => absurd hl h, fun _ => rfl, Or.inl rfl⟩

/-- C8 witness: a test reporting agreement 0 flips exactly the first of two
chains. -/
theorem orientation_flip_once_witness :
    (assembleModel (fun _ => 0) [[(1 : ℝ)], [2]]).drop 1 = [[(2 : ℝ)]]
    ∧ assembleModel (fun _ => 0) [[(1 : ℝ)], [2]] = flipFirst [[(1 : ℝ)], [2]] := by
  constructor
  · rw [(orientation_flip_once (fun _ => 0) [[(1 : ℝ)], [2]]).1]
    rfl
  · exact (orientation_flip_once (fun _ => 0) [[(1 : ℝ)], [2]]).2.1 (by norm_num)

/-- C9 counterexample: a training set with 3 response rows but 2 challenges
is accepted by learner construction — no eager shape validation occurs,
refuting the claim that construction with such shapes fails. -/
theorem init_no_validation_cex :
    (TrainingSet.mk [[(1 : ℤ)], [-1]] [[1, 1], [1, -1], [-1, -1]]).responses.length
        ≠ (TrainingSet.mk [[(1 : ℤ)], [-1]] [[1, 1], [1, -1], [-1, -1]]).challenges.length
    ∧ ∃ st, rcmaes_init (TrainingSet.mk [[(1 : ℤ)], [-1]] [[1, 1], [1, -1], [-1, -1]]) 2 1
        (fun _ _ => []) 8 (1 / 100) 10 = Except.ok st :=
  ⟨by decide, ⟨_, rfl⟩⟩

/-- C9 amended: learner construction performs no shape validation at all —
for every training set whose response count differs from its challenge count,
construction still succeeds, and the mismatched reliability vector (one entry
per response row) is stored in the learner state, deferring any failure to
the later objective evaluations. -/
theorem init_no_validation (ts : TrainingSet) (k n : ℕ)
    (transform : List (List ℤ) → ℕ → List (List (List ℝ)))
    (pop_size : ℕ) (abort_delta : ℚ) (abort_iter : ℕ)
    (hmis : ts.responses.length ≠ ts.challenges.length) :
    ∃ st, rcmaes_init ts k n transform pop_size abort_delta abort_iter = Except.ok st
      ∧ st.puf_reliabilities.length = ts.responses.length := by
  refine ⟨_, rfl, ?_⟩
  exact reliabilities_PUF_length ts.responses

/-- C9 witness: the concrete mismatched training set instantiates the amended
statement. -/
theorem init_no_validation_witness :
    (TrainingSet.mk [[(1 : ℤ)], [-1]] [[1, 1], [1, -1], [-1, -1]]).responses.length
        ≠ (TrainingSet.mk [[(1 : ℤ)], [-1]] [[1, 1], [1, -1], [-1, -1]]).challenges.length
    ∧ ∃ st, rcmaes_init (TrainingSet.mk [[(1 : ℤ)], [-1]] [[1, 1], [1, -1], [-1, -1]]) 3 1
        (fun _ _ => []) 8 (1 / 100) 10 = Except.ok st
      ∧ st.puf_reliabilities.length
          = (TrainingSet.mk [[(1 : ℤ)], [-1]] [[1, 1], [1, -1], [-1, -1]]).responses.length :=
  ⟨by decide,
    init_no_validation (TrainingSet.mk [[(1 : ℤ)], [-1]] [[1, 1], [1, -1], [-1, -1]]) 3 1
      (fun _ _ => []) 8 (1 / 100) 10 (by decide)⟩

/-- C10: the objective is deterministic and reads no state beyond the stage
count `n`, the stored oracle reliability vector and the current linearized
challenge matrix: two learner states agreeing on those three fields produce
identical cost vectors on every population, whatever their other fields
hold. -/
theorem objective_deterministic (s₁ s₂ : LearnerState) (pop : List (List ℝ))
    (hn : s₁.n = s₂.n) (hy : s₁.puf_reliabilities = s₂.puf_reliabilities)
    (hch : s₁.current_challenges = s₂.current_challenges) :
    objective s₁ pop = objective s₂ pop := by
  have hcand : ∀ cand, objCand s₁ cand = objCand s₂ cand := by
    intro cand
    unfold objCand modelReliability delayDiffs pufY
    rw [hn, hy, hch]
  unfold objective
  exact List.map_congr_left (fun cand _ => hcand cand)

/-- C10 witness: `cexState` and `stVariant` differ in `k`, `pop_size`,
`abort_delta`, `abort_iter` and `linearized_challenges` but agree on the
three relevant fields, and produce the same costs. -/
theorem objective_deterministic_witness :
    cexState.n = stVariant.n
    ∧ cexState.puf_reliabilities = stVariant.puf_reliabilities
    ∧ cexState.current_challenges = stVariant.current_challenges
    ∧ objective cexState [[1, 3 / 2]] = objective stVariant [[1, 3 / 2]] :=
  ⟨rfl, rfl, rfl, objective_deterministic cexState stVariant [[1, 3 / 2]] rfl rfl rfl⟩

end PypufCMAES
